import Mathlib

/-!
Verification development for the ProTrace NFT-provenance registry
(repository `sapera-calibrate/ProTrace`).

The definitions below are a shallow embedding of the Python core:

* `ProTrace.ImageDna`  — `ProPy/modules/protrace_legacy/image_dna.py`
* `ProTrace.PerceptualHash` — `ProPy/modules/dna_extraction/perceptual_hash.py`
* `ProTrace.Merkle`    — `ProPy/modules/protrace_legacy/merkle.py`
* `ProTrace.Register`  — `ProPy/modules/protrace_legacy/registration/register_image.py`
* `ProTrace.Dhash`     — the dHash image pipelines of the two DNA modules

Modelling conventions, used throughout:

* Python `bytes` and `str` values are `List Nat` (byte / code-point lists; all
  strings handled by the core are ASCII, where UTF-8 encoding is the identity
  on code points).
* The BLAKE3 / SHA-256 digest (an external library, not part of the
  repository) is an arbitrary function parameter `H : List Nat → List Nat`.
  Hex-encoding of digests (`.hex()` / `bytes.fromhex` round trips inside
  `merkle.py`) is elided: it is a bijection between byte strings and hex
  strings, so equality tests on hex strings coincide with equality tests on
  the digests themselves.
* Python floats: every similarity value `1.0 - d/256.0` with integral `d` is
  a dyadic rational that IEEE-754 doubles represent exactly, so similarity
  arithmetic is modelled exactly in `ℚ`.  The float literal `0.90` is modelled
  as `9/10`; the double nearest to 0.9 differs from `9/10` by less than
  `2 ^ (-52)`, and no multiple of `1/256` lies between the two, so every
  comparison `similarity >= threshold` performed by the code has the same
  outcome under both readings.
* A Python function that can raise is modelled with `Option`/`Except`, or by
  returning the (mutated) state together with an error flag when the source
  mutates `self` before raising.
* `while` loops over shrinking node lists are modelled by structural
  recursion on an explicit iteration bound (`fuel`); the bound passed by the
  wrappers (the initial list length) always dominates the number of
  iterations the Python loop performs, since each pass at least halves the
  level.
-/

namespace ProTrace

/-! ## Bit counting

`bin(x).count('1')` on a non-negative Python int is the binary population
count.  The recursion `popCount n = n % 2 + popCount (n / 2)` is made
structural with a fuel argument; fuel `n` suffices because the recursion
depth is the bit length of `n`, which never exceeds `n`. -/

/-- Fuel-driven population count kernel. -/
def pcAux : Nat → Nat → Nat
  | 0, _ => 0
  | f + 1, n => if n = 0 then 0 else n % 2 + pcAux f (n / 2)

/-- Number of set bits of a natural number: the model of Python
`bin(x).count('1')` for `x ≥ 0`. -/
def popCount (n : Nat) : Nat := pcAux n n

/-! ## Hex strings

Strings are lists of code points.  `hexDigitVal` is the value of one
hexadecimal digit character (`0-9`, `a-f`, `A-F`). -/

/-- Value of a single hexadecimal digit character code, `none` otherwise. -/
def hexDigitVal (c : Nat) : Option Nat :=
  if 48 ≤ c ∧ c ≤ 57 then some (c - 48)
  else if 97 ≤ c ∧ c ≤ 102 then some (c - 87)
  else if 65 ≤ c ∧ c ≤ 70 then some (c - 55)
  else none

/-- Positional accumulation of hex digits, as `int(s, 16)` performs it. -/
def hexToNatAux : List Nat → Nat → Option Nat
  | [], acc => some acc
  | c :: rest, acc =>
    match hexDigitVal c with
    | none => none
    | some d => hexToNatAux rest (16 * acc + d)

/-- Python `int(s, 16)` on a plain string of hexadecimal digits; `none`
models the `ValueError` raised on a non-digit and on the empty string.
(`int` additionally tolerates surrounding whitespace, a sign, an `0x`
prefix and embedded underscores; none of those occur in the DNA hex
strings the repository feeds it, which is the regime the claims are
about.) -/
def int16 (s : List Nat) : Option Nat :=
  if s.isEmpty then none else hexToNatAux s 0

/-- Python `bytes.fromhex`: consume the string two hex digits at a time;
`none` models the `ValueError` on odd length or a non-digit.  (`fromhex`
also skips ASCII spaces; the modelled strings are space-free.)  Note that
`bytes.fromhex("")` succeeds with `b""`. -/
def fromhex : List Nat → Option (List Nat)
  | [] => some []
  | [_] => none
  | c1 :: c2 :: rest =>
    match hexDigitVal c1, hexDigitVal c2 with
    | some d1, some d2 => (fromhex rest).map (fun bs => (16 * d1 + d2) :: bs)
    | _, _ => none

/-- Big-endian value of a byte string; this is the integer that
`int(s, 16)` returns on the hex spelling of `bs`. -/
def bytesToNat (bs : List Nat) : Nat :=
  List.foldl (fun a b => 256 * a + b) 0 bs

/-! ## `image_dna.py` — Hamming distance, similarity, duplicate predicate -/

namespace ImageDna

/-- Model of `image_dna.hamming_distance`: raise (`none`) on a length
mismatch or on hex strings `int(·, 16)` rejects; otherwise the population
count of the XOR of the two values (`bin(int1 ^ int2).count('1')`). -/
def hamming_distance (hash1 hash2 : List Nat) : Option Nat :=
  if hash1.length ≠ hash2.length then none
  else
    match int16 hash1, int16 hash2 with
    | some int1, some int2 => some (popCount (int1 ^^^ int2))
    | _, _ => none

/-- Model of `image_dna.dna_similarity`: `1.0 - distance / 256.0`.  The
quotient of an integer by 256 is exact in double precision, so the value is
modelled exactly in `ℚ`. -/
def dna_similarity (hash1 hash2 : List Nat) : Option ℚ :=
  (hamming_distance hash1 hash2).map (fun distance => 1 - (distance : ℚ) / 256)

/-- Model of `image_dna.is_duplicate`: `distance <= threshold` (default
threshold 26). -/
def is_duplicate (hash1 hash2 : List Nat) (threshold : Nat) : Option Bool :=
  (hamming_distance hash1 hash2).map (fun distance => decide (distance ≤ threshold))

end ImageDna

/-! ## `perceptual_hash.py` — Hamming distance -/

namespace PerceptualHash

/-- Model of `perceptual_hash.hamming_distance`: returns 256 on a length
mismatch and on strings `bytes.fromhex` rejects; otherwise the sum of
per-byte XOR population counts. -/
def hamming_distance (hash1 hash2 : List Nat) : Nat :=
  if hash1.length ≠ hash2.length then 256
  else
    match fromhex hash1, fromhex hash2 with
    | some bytes1, some bytes2 =>
        (List.zipWith (fun b1 b2 => popCount (b1 ^^^ b2)) bytes1 bytes2).sum
    | _, _ => 256

end PerceptualHash

/-! ## `merkle.py` — the BLAKE3 commitment tree

The digest function is a parameter `H` throughout.  `MerkleNode` objects
only ever surface through their `hash` field, so node lists are lists of
digests; `MerkleNode(left, right)` is `H (left ++ right)` and a leaf node
is `H data`, exactly the two branches of `MerkleNode.__init__` that the
tree code reaches.  `leaf_map` is written but never read by any modelled
operation and is omitted. -/

namespace Merkle

/-- Side tag of a proof element (`'position'` in the Python dict). -/
inductive Side where
  | left
  | right
deriving DecidableEq

/-- One proof element: the sibling digest plus its side. -/
structure ProofElem where
  hash : List Nat
  side : Side
deriving DecidableEq

/-- Errors raised by the modelled operations of `MerkleTree`. -/
inductive MerkleError where
  | outOfRange    -- `IndexError("Leaf index ... out of range")`
  | notBuilt      -- `ValueError("Tree not built. Call build_tree() first")`
  | rootMismatch  -- `ValueError("Imported manifest root mismatch")`
deriving DecidableEq

/-- Mutable state of a `MerkleTree` object: the ordered leaf byte strings
and the cached root digest (`self.root`, observed only through its hash). -/
structure MerkleTree where
  leaves : List (List Nat)
  root : Option (List Nat)
deriving DecidableEq

/-- `MerkleTree.__init__`: empty leaf list, no root. -/
def MerkleTree.init : MerkleTree := { leaves := [], root := none }

/-- Decimal digit characters of a natural number, as `str(n)` renders it;
structural on a fuel that dominates the digit count. -/
def decDigitsAux : Nat → Nat → List Nat → List Nat
  | 0, _, acc => acc
  | f + 1, n, acc =>
    if n < 10 then (48 + n) :: acc
    else decDigitsAux f (n / 10) ((48 + n % 10) :: acc)

/-- `str(n)` for a non-negative integer, as a code-point list. -/
def decDigits (n : Nat) : List Nat := decDigitsAux (n + 1) n []

/-- The leaf preimage built by `add_leaf`:
`f"{dna_hex}|{pointer}|{platform_id}|{timestamp}".encode('utf-8')`
(code point 124 is `'|'`). -/
def mkLeafData (dna_hex pointer platform_id : List Nat) (timestamp : Nat) : List Nat :=
  dna_hex ++ 124 :: pointer ++ 124 :: platform_id ++ 124 :: decDigits timestamp

/-- `MerkleTree.add_leaf`: append the leaf preimage to `self.leaves`.  Note
that neither `self.root` nor anything else is touched. -/
def add_leaf (t : MerkleTree) (dna_hex pointer platform_id : List Nat)
    (timestamp : Nat) : MerkleTree :=
  { t with leaves := t.leaves ++ [mkLeafData dna_hex pointer platform_id timestamp] }

/-- One pass of the bottom-up construction loop
(`for i in range(0, len(nodes), 2)`): hash adjacent pairs, the last node of
an odd level being paired with itself. -/
def levelUp (H : List Nat → List Nat) : List (List Nat) → List (List Nat)
  | [] => []
  | [a] => [H (a ++ a)]
  | a :: b :: rest => H (a ++ b) :: levelUp H rest

/-- The `while len(nodes) > 1` loop of `build_tree`, with an explicit
iteration bound; each pass halves the level (rounding up), so any fuel at
least the initial length runs the loop to completion. -/
def buildIter (H : List Nat → List Nat) : Nat → List (List Nat) → List (List Nat)
  | 0, nodes => nodes
  | f + 1, nodes =>
    if nodes.length ≤ 1 then nodes else buildIter H f (levelUp H nodes)

/-- Root digest of a nonempty list of leaf byte strings: hash the leaves,
then fold levels until one node remains (`nodes[0]`). -/
def buildRoot (H : List Nat → List Nat) (hashes : List (List Nat)) : List Nat :=
  (buildIter H hashes.length hashes).headD []

/-- `MerkleTree.build_tree`: recompute `self.root` from `self.leaves` and
return the new root (hex encoding elided), `None` on an empty tree. -/
def build_tree (H : List Nat → List Nat) (t : MerkleTree) :
    MerkleTree × Option (List Nat) :=
  if t.leaves.isEmpty then ({ t with root := none }, none)
  else
    let r := buildRoot H (t.leaves.map H)
    ({ t with root := some r }, some r)

/-- `MerkleTree.get_root`: the cached root digest, with no recomputation. -/
def get_root (t : MerkleTree) : Option (List Nat) := t.root

/-- The proof element contributed by the level `nodes` for the node at
`idx`: the pair containing `idx` starts at `2 * (idx / 2)`; an even `idx`
records its right sibling (the node itself when the pair is the dangling
last node of an odd level), an odd `idx` records its left sibling. -/
def proofStep (nodes : List (List Nat)) (idx : Nat) : ProofElem :=
  let i := 2 * (idx / 2)
  if idx % 2 = 0 then
    { hash := if i + 1 < nodes.length then nodes.getD (i + 1) [] else nodes.getD i [],
      side := Side.right }
  else
    { hash := nodes.getD i [], side := Side.left }

/-- The `while len(nodes) > 1` loop of `get_proof`: collect one sibling per
level, halving the tracked index (`current_index = i // 2`). -/
def proofIter (H : List Nat → List Nat) : Nat → List (List Nat) → Nat → List ProofElem
  | 0, _, _ => []
  | f + 1, nodes, idx =>
    if nodes.length ≤ 1 then []
    else proofStep nodes idx :: proofIter H f (levelUp H nodes) (idx / 2)

/-- `MerkleTree.get_proof`: an index at or beyond the leaf count raises
`IndexError` (a `Nat` index covers `leaf_index < 0` vacuously), an unbuilt
tree raises `ValueError`, otherwise the per-level sibling path is
collected from a fresh bottom-up rebuild of the node levels. -/
def get_proof (H : List Nat → List Nat) (t : MerkleTree) (leaf_index : Nat) :
    Except MerkleError (List ProofElem) :=
  if t.leaves.length ≤ leaf_index then Except.error MerkleError.outOfRange
  else if t.root.isNone then Except.error MerkleError.notBuilt
  else Except.ok (proofIter H t.leaves.length (t.leaves.map H) leaf_index)

/-- One verification step: fold the sibling on the recorded side. -/
def chainStep (H : List Nat → List Nat) (current : List Nat) (e : ProofElem) : List Nat :=
  match e.side with
  | Side.left => H (e.hash ++ current)
  | Side.right => H (current ++ e.hash)

/-- `MerkleTree.verify_proof`: hash the leaf data, fold the proof path,
compare with the expected root (hex round trip elided). -/
def verify_proof (H : List Nat → List Nat) (leaf_data : List Nat)
    (proof : List ProofElem) (root_hash : List Nat) : Bool :=
  List.foldl (chainStep H) (H leaf_data) proof == root_hash

/-- One leaf record of a manifest (the fields `import_manifest` reads). -/
structure ManifestLeaf where
  dna_hex : List Nat
  pointer : List Nat
  platform_id : List Nat
  timestamp : Nat
deriving DecidableEq

/-- A manifest as consumed by `import_manifest`: declared root and leaf
records.  (`total_leaves` and `proofs` are exported but never read back.) -/
structure Manifest where
  root : List Nat
  leaves : List ManifestLeaf
deriving DecidableEq

/-- `MerkleTree.import_manifest`: clear the leaf list, re-add every
manifest leaf, rebuild, then compare roots.  The comparison happens after
the mutation, so the method returns the mutated state together with the
error flag (`ValueError("Imported manifest root mismatch")`) — a raise in
Python does not roll `self` back. -/
def import_manifest (H : List Nat → List Nat) (t : MerkleTree) (m : Manifest) :
    MerkleTree × Option MerkleError :=
  let cleared : MerkleTree := { leaves := [], root := t.root }
  let filled := m.leaves.foldl
    (fun s l => add_leaf s l.dna_hex l.pointer l.platform_id l.timestamp) cleared
  let built := (build_tree H filled).1
  if get_root built = some m.root then (built, none)
  else (built, some MerkleError.rootMismatch)

end Merkle

/-! ## `registration/register_image.py` — the registration pipeline

The persisted registry file is modelled by its list of leaf byte strings
(`data['leaves']`, hex round trip elided; `root_hash` and `leaf_count` are
derived fields that `load_merkle_tree` never reads).  The DNA of the image
is a parameter: `compute_dna` runs before any registry state is touched and
its failure path returns early without modifying anything. -/

namespace Register

open Merkle

/-- DNA hex extracted from a leaf byte string:
`leaf_str.split('|')[0]` — the prefix before the first `'|'`. -/
def leafDna (leaf : List Nat) : List Nat :=
  leaf.takeWhile (fun c => c != 124)

/-- `load_merkle_tree`: reconstruct the tree object from the persisted
leaves (building only when nonempty) together with the extracted DNA list. -/
def load_merkle_tree (H : List Nat → List Nat) (fileLeaves : List (List Nat)) :
    MerkleTree × List (List Nat) :=
  let t : MerkleTree := { leaves := fileLeaves, root := none }
  let t := if fileLeaves.isEmpty then t else (build_tree H t).1
  (t, fileLeaves.map leafDna)

/-- The `match_info` dictionary built by `check_for_duplicates`
(`similarity` is already scaled to a percentage). -/
structure MatchInfo where
  index : Nat
  similarity : ℚ
  hamming : Nat
  existing_dna : List Nat
deriving DecidableEq

/-- Outcome of the scan loop of `check_for_duplicates`: either the early
exit on the first entry at or above the threshold, or the tracked running
maximum and best index (`-1` modelled as `none`) at loop end. -/
inductive ScanOut where
  | foundDup (idx : Nat) (sim : ℚ)
  | finished (maxSim : ℚ) (best : Option Nat)
deriving DecidableEq

/-- The `for idx, existing_dna in enumerate(existing_dnas)` loop:
update the running maximum, then exit early when
`similarity >= threshold`.  `none` models the `ValueError` that
`dna_similarity` propagates on malformed entries. -/
def scanAux (new_dna : List Nat) (threshold : ℚ) :
    List (Nat × List Nat) → ℚ → Option Nat → Option ScanOut
  | [], maxSim, best => some (ScanOut.finished maxSim best)
  | (idx, existing) :: rest, maxSim, best =>
    match ImageDna.dna_similarity new_dna existing with
    | none => none
    | some sim =>
      let maxSim' := if maxSim < sim then sim else maxSim
      let best' := if maxSim < sim then some idx else best
      if threshold ≤ sim then some (ScanOut.foundDup idx sim)
      else scanAux new_dna threshold rest maxSim' best'

/-- `check_for_duplicates`: empty registry short-circuits to
`(False, None)`; otherwise scan, and package the matched / best entry with
its percentage similarity and Hamming distance. -/
def check_for_duplicates (new_dna : List Nat) (existing_dnas : List (List Nat))
    (threshold : ℚ) : Option (Bool × Option MatchInfo) :=
  if existing_dnas.isEmpty then some (false, none)
  else
    match scanAux new_dna threshold existing_dnas.enum 0 none with
    | none => none
    | some (ScanOut.foundDup idx sim) =>
      match ImageDna.hamming_distance new_dna (existing_dnas.getD idx []) with
      | none => none
      | some d => some (true, some
          { index := idx, similarity := sim * 100, hamming := d,
            existing_dna := existing_dnas.getD idx [] })
    | some (ScanOut.finished maxSim best) =>
      match best with
      | none => some (false, none)
      | some idx =>
        match ImageDna.hamming_distance new_dna (existing_dnas.getD idx []) with
        | none => none
        | some d => some (false, some
            { index := idx, similarity := maxSim * 100, hamming := d,
              existing_dna := existing_dnas.getD idx [] })

/-- Result dictionary of `register_image`, restricted to the observable
fields.  `raised` stands for an exception escaping the call (nothing is
persisted in that case). -/
inductive RegOutcome where
  | raised
  | rejected (dna : List Nat) (matchInfo : MatchInfo)
  | accepted (dna pointer platform_id : List Nat) (timestamp : Nat)
      (root_hash : Option (List Nat)) (registry_size : Nat)
      (best_match : Option MatchInfo)
deriving DecidableEq

/-- `register_image` after DNA computation: load the persisted tree, check
for duplicates, and either return the rejection (persisting nothing) or
append the new leaf, rebuild, persist and return the acceptance.  The
returned second component is the persisted leaf list after the call. -/
def register_image (H : List Nat → List Nat) (fileLeaves : List (List Nat))
    (new_dna pointer platform_id : List Nat) (timestamp : Nat) (threshold : ℚ) :
    RegOutcome × List (List Nat) :=
  let loaded := load_merkle_tree H fileLeaves
  match check_for_duplicates new_dna loaded.2 threshold with
  | none => (RegOutcome.raised, fileLeaves)
  | some (true, some info) => (RegOutcome.rejected new_dna info, fileLeaves)
  | some (true, none) => (RegOutcome.raised, fileLeaves)
  | some (false, best) =>
    let appended := add_leaf loaded.1 new_dna pointer platform_id timestamp
    let built := build_tree H appended
    (RegOutcome.accepted new_dna pointer platform_id timestamp built.2
        built.1.leaves.length best,
      built.1.leaves)

end Register

/-! ## The dHash image pipelines

Shallow embedding of `compute_dhash_legacy` (`image_dna.py`) and
`compute_dhash_optimized` (`perceptual_hash.py`).  Repository code —
cropping arithmetic, block averaging, the gradient comparison, bit
packing, hex formatting — is modelled concretely; calls into PIL / scipy
(grayscale conversion, uniform filtering, resizing, zooming) are
parameters gathered in a library record, since those functions are
external to the repository.  Float arrays are modelled over `ℚ`; the
claims proved below depend only on value equalities that are exact in
`float32` as well (constant arrays stay constant under every rounding). -/

namespace Dhash

/-- A two-dimensional array (numpy array / PIL image plane): height, width
and an entry function indexed row-first. -/
structure Mat (α : Type) where
  h : Nat
  w : Nat
  px : Nat → Nat → α

/-- An RGB image as PIL presents it: size `(w, h)` and a pixel accessor by
`(x, y)`, each channel an 8-bit value. -/
structure Img where
  w : Nat
  h : Nat
  px : Nat → Nat → Nat × Nat × Nat

/-- The center crop of `compute_dhash_legacy`
(`left = max(0, (w - crop_size) // 2)` …, then `img.crop`).  Natural
subtraction truncates at zero exactly where Python's `max(0, ·)` does. -/
def centerCrop (img : Img) (crop_size : Nat) : Img :=
  let left := max 0 ((img.w - crop_size) / 2)
  let top := max 0 ((img.h - crop_size) / 2)
  let right := min img.w (left + crop_size)
  let bottom := min img.h (top + crop_size)
  { w := right - left, h := bottom - top,
    px := fun x y => img.px (left + x) (top + y) }

/-- Block averaging (`reshape(new_h, b, new_w, b).mean(axis=(1, 3))`), with
the guard `if new_h > 0 and new_w > 0` of the sources; a degenerate grid is
returned unchanged.  Mean of a `b × b` block, right/bottom residues
discarded. -/
def block_average (m : Mat ℚ) (b : Nat) : Mat ℚ :=
  let new_h := m.h / b
  let new_w := m.w / b
  if 0 < new_h ∧ 0 < new_w then
    { h := new_h, w := new_w,
      px := fun i j =>
        (∑ a ∈ Finset.range b, ∑ c ∈ Finset.range b, m.px (b * i + a) (b * j + c))
          / ((b : ℚ) * (b : ℚ)) }
  else m

/-- `numpy` cast of a float to `uint8` (`astype(np.uint8)`): truncation
toward zero, reduced modulo 256. -/
def ratToU8 (q : ℚ) : Nat := (Int.tdiv q.num (q.den : Int)).toNat % 256

/-- Pointwise `astype(np.uint8)` on a float array. -/
def matToU8 (m : Mat ℚ) : Mat Nat :=
  { h := m.h, w := m.w, px := fun i j => ratToU8 (m.px i j) }

/-- `astype(int)` on a float array: truncation toward zero. -/
def matTrunc (m : Mat ℚ) : Mat Int :=
  { h := m.h, w := m.w, px := fun i j => Int.tdiv (m.px i j).num ((m.px i j).den : Int) }

/-- The horizontal-gradient bits of a `(8, 9)` array:
`diff = pixels[:, 1:] > pixels[:, :-1]`, flattened row-major — bit `(r, c)`
is `pixels[r][c+1] > pixels[r][c]`. -/
def gradientBits {α : Type} [LT α] [∀ x y : α, Decidable (x < y)] (m : Mat α) : List Bool :=
  (List.product (List.range 8) (List.range 8)).map
    (fun rc => decide (m.px rc.1 rc.2 < m.px rc.1 (rc.2 + 1)))

/-- `int(bitstring, 2)` on the flattened bit row. -/
def bitsToNat (bits : List Bool) : Nat :=
  bits.foldl (fun a b => 2 * a + b.toNat) 0

/-- Lowercase hex digit character code. -/
def hexDigitChar (d : Nat) : Nat := if d < 10 then 48 + d else 87 + d

/-- Hex digit characters of a natural number, fuel-structural. -/
def hexDigitsAux : Nat → Nat → List Nat → List Nat
  | 0, _, acc => acc
  | f + 1, n, acc =>
    if n < 16 then hexDigitChar n :: acc
    else hexDigitsAux f (n / 16) (hexDigitChar (n % 16) :: acc)

/-- `f'{n:x}'`: minimal lowercase hex rendering. -/
def hexDigits (n : Nat) : List Nat := hexDigitsAux (n + 1) n []

/-- `f'{n:016x}'`: hex rendering left-padded with zeros to 16 characters. -/
def hexPad16 (n : Nat) : List Nat :=
  List.replicate (16 - (hexDigits n).length) 48 ++ hexDigits n

/-- The external library calls of `compute_dhash_legacy` and
`compute_dna` (`image_dna.py`): PIL grayscale conversion, scipy
`uniform_filter(·, size=3, mode='nearest')`, PIL `resize((9, 8), BILINEAR)`
on a `uint8` image, and the whole 192-bit grid-hash pipeline (a disjoint
computation whose output is its hex string). -/
structure LegacyLibs where
  toGray : Img → Mat ℚ
  uniformFilter3 : Mat ℚ → Mat ℚ
  resizeBilinear : Mat Nat → Nat → Nat → Mat Nat
  gridHex : Img → List Nat

/-- `compute_dhash_legacy`: crop 512, grayscale, blur, 4×4 block average,
`uint8` cast, resize to 9×8, horizontal gradients, pack to 16 hex chars.
Returns `(hash_hex, bits)`; the middle `bitstring` return value is the
rendering of `bits`. -/
def compute_dhash_legacy (L : LegacyLibs) (img : Img) : List Nat × List Bool :=
  let cropped := centerCrop img 512
  let gray := L.toGray cropped
  let blurred := L.uniformFilter3 gray
  let gray_128 := block_average blurred 4
  let img_128 := matToU8 gray_128
  let small := L.resizeBilinear img_128 9 8
  let bits := gradientBits small
  (hexPad16 (bitsToNat bits), bits)

/-- `compute_dna` restricted to its `dna_hex` field:
`dhash_hex + grid_hex` (16 + 48 hex chars); the remaining dictionary
fields (`dna_binary`, components, algorithm tag) are derived from it. -/
def compute_dna (L : LegacyLibs) (img : Img) : List Nat :=
  (compute_dhash_legacy L img).1 ++ L.gridHex img

/-- The external library calls of `compute_dhash_optimized`
(`perceptual_hash.py`): scipy `uniform_filter1d(·, size, axis,
mode='nearest')` and `scipy.ndimage.zoom` bilinear resizing
(`resize_fast`). -/
structure OptLibs where
  uniformFilter1d : Mat ℚ → Nat → Nat → Mat ℚ
  zoomResize : Mat ℚ → Nat → Nat → Mat ℚ

/-- `np.array(img)` on a PIL RGB image: shape `(h, w, 3)`, row-first. -/
def imgToArray (img : Img) : Mat (Nat × Nat × Nat) :=
  { h := img.h, w := img.w, px := fun i j => img.px j i }

/-- The numpy slice crop of `compute_dhash_optimized`
(`img_array[top:top+crop, left:left+crop]`); slicing clamps at the array
boundary. -/
def sliceCrop (m : Mat (Nat × Nat × Nat)) (crop : Nat) : Mat (Nat × Nat × Nat) :=
  let left := max 0 ((m.w - crop) / 2)
  let top := max 0 ((m.h - crop) / 2)
  { h := min m.h (top + crop) - top, w := min m.w (left + crop) - left,
    px := fun i j => m.px (top + i) (left + j) }

/-- `rgb_to_gray_fast`: ITU-R BT.601 weights
`0.299 R + 0.587 G + 0.114 B` (float32 arithmetic modelled in `ℚ`). -/
def rgb_to_gray_fast (m : Mat (Nat × Nat × Nat)) : Mat ℚ :=
  { h := m.h, w := m.w,
    px := fun i j =>
      (299 / 1000 : ℚ) * (m.px i j).1 + (587 / 1000 : ℚ) * (m.px i j).2.1
        + (114 / 1000 : ℚ) * (m.px i j).2.2 }

/-- `box_blur_separable`: horizontal then vertical `uniform_filter1d`. -/
def box_blur_separable (L : OptLibs) (m : Mat ℚ) : Mat ℚ :=
  L.uniformFilter1d (L.uniformFilter1d m 3 1) 3 0

/-- `block_average_strided`: identical arithmetic to `block_average`
(the `as_strided` layout is a zero-copy detail), including the degenerate
guard. -/
def block_average_strided (m : Mat ℚ) (b : Nat) : Mat ℚ := block_average m b

/-- `pack_bits_fast`: `hash_int = (hash_int << 1) | bit` folded over the
bits, rendered as `f'{hash_int:016x}'`. -/
def pack_bits_fast (bits : List Bool) : List Nat :=
  hexPad16 (bits.foldl (fun a b => (a <<< 1) ||| b.toNat) 0)

/-- `compute_dhash_optimized`: numpy crop, fast grayscale, separable box
blur, strided 4×4 block average, `resize_fast` to `(8, 9)`, `astype(int)`,
horizontal gradients, fast bit packing. -/
def compute_dhash_optimized (L : OptLibs) (img : Img) : List Nat × List Bool :=
  let arr := imgToArray img
  let cropped := sliceCrop arr 512
  let gray := rgb_to_gray_fast cropped
  let blurred := box_blur_separable L gray
  let gray_128 := block_average_strided blurred 4
  let small := L.zoomResize gray_128 8 9
  let pixels := matTrunc small
  let bits := gradientBits pixels
  (pack_bits_fast bits, bits)

/-- All pixels inside the image extent share the value `c`. -/
def Img.IsConst (img : Img) (c : Nat × Nat × Nat) : Prop :=
  ∀ x y, x < img.w → y < img.h → img.px x y = c

/-- All entries of the array (inside and outside the extent — arrays are
modelled as total functions) share the value `q`. -/
def Mat.IsConst {α : Type} (m : Mat α) (q : α) : Prop :=
  ∀ i j, m.px i j = q

/-- All entries inside the array extent share the value `q`. -/
def Mat.IsConstW {α : Type} (m : Mat α) (q : α) : Prop :=
  ∀ i j, i < m.h → j < m.w → m.px i j = q

end Dhash

/-! ## Test fixtures

Concrete instantiations used by witnesses and counterexamples: a concrete
digest function (the hash parameter is universally quantified in every
theorem, so any computable function witnesses it), concrete DNA hex
strings, small trees, a mismatching manifest, concrete library records and
small solid images. -/

/-- A concrete digest function for witnesses: the identity on byte
strings. -/
def testHash : List Nat → List Nat := fun l => l

/-- The 64-character hex string of all zeros (code 48 is `'0'`). -/
def dnaZeros : List Nat := List.replicate 64 48

/-- A 64-character hex string at Hamming distance exactly 26 from
`dnaZeros`: 57 zeros followed by `3ffffff` (codes 51 and 102). -/
def dna26 : List Nat :=
  List.replicate 57 48 ++ [51, 102, 102, 102, 102, 102, 102]

/-- A 64-character hex string at Hamming distance exactly 27 from
`dnaZeros`: 57 zeros followed by `7ffffff`. -/
def dna27 : List Nat :=
  List.replicate 57 48 ++ [55, 102, 102, 102, 102, 102, 102]

/-- A one-leaf tree, built. -/
def builtOne : Merkle.MerkleTree :=
  (Merkle.build_tree testHash { leaves := [[1]], root := none }).1

/-- A five-leaf tree, not yet built (odd level counts appear at every
level of its construction: 5 → 3 → 2 → 1). -/
def treeFive : Merkle.MerkleTree :=
  { leaves := [[1], [2], [3], [4], [5]], root := none }

/-- A manifest whose declared root cannot match its rebuilt root under
`testHash`. -/
def badManifest : Merkle.Manifest :=
  { root := [9],
    leaves := [{ dna_hex := [2], pointer := [3], platform_id := [4], timestamp := 5 }] }

/-- Concrete legacy library record: constant grayscale conversion,
constant-propagating filter and resize, fixed 48-character grid hash. -/
def testLegacyLibs : Dhash.LegacyLibs :=
  { toGray := fun im => { h := im.h, w := im.w, px := fun _ _ => 7 },
    uniformFilter3 := fun m => { h := m.h, w := m.w, px := fun _ _ => m.px 0 0 },
    resizeBilinear := fun m ww hh => { h := hh, w := ww, px := fun _ _ => m.px 0 0 },
    gridHex := fun _ => List.replicate 48 48 }

/-- Concrete optimized library record with constant-propagating filter and
zoom. -/
def testOptLibs : Dhash.OptLibs :=
  { uniformFilter1d := fun m _ _ => { h := m.h, w := m.w, px := fun _ _ => m.px 0 0 },
    zoomResize := fun m hh ww => { h := hh, w := ww, px := fun _ _ => m.px 0 0 } }

/-- A solid-red 4×4 image (both dimensions below 8). -/
def img4 : Dhash.Img := { w := 4, h := 4, px := fun _ _ => (255, 0, 0) }

/-- A solid-red 256×256 image (scenario S1 of the specification). -/
def img256 : Dhash.Img := { w := 256, h := 256, px := fun _ _ => (255, 0, 0) }



/-! # Theorems

Everything below is proof: helper lemmas first, then one theorem per
claim (with witnesses and counterexamples where required). -/

/-- The fuel argument of `pcAux` is irrelevant as soon as it dominates the
argument. -/
theorem pcAux_congr : ∀ n f g : Nat, n ≤ f → n ≤ g → pcAux f n = pcAux g n := by
  intro n
  induction n using Nat.strong_induction_on with
  | _ n ih =>
    intro f g hf hg
    match f, g with
    | 0, 0 => rfl
    | 0, g + 1 =>
      have : n = 0 := Nat.le_zero.mp hf
      subst this; simp [pcAux]
    | f + 1, 0 =>
      have : n = 0 := Nat.le_zero.mp hg
      subst this; simp [pcAux]
    | f + 1, g + 1 =>
      by_cases hn : n = 0
      · subst hn; simp [pcAux]
      · have hlt : n / 2 < n := Nat.div_lt_self (Nat.pos_of_ne_zero hn) one_lt_two
        have h1 : n / 2 ≤ f := by omega
        have h2 : n / 2 ≤ g := by omega
        simp only [pcAux, if_neg hn]
        rw [ih (n / 2) hlt f g h1 h2]

/-- Defining equation of `popCount`, fuel eliminated. -/
theorem popCount_eq (n : Nat) :
    popCount n = if n = 0 then 0 else n % 2 + popCount (n / 2) := by
  by_cases hn : n = 0
  · subst hn; simp [popCount, pcAux]
  · have hpos : 0 < n := Nat.pos_of_ne_zero hn
    obtain ⟨m, rfl⟩ : ∃ m, n = m + 1 := ⟨n - 1, by omega⟩
    simp only [popCount, pcAux, if_neg hn]
    have hle : (m + 1) / 2 ≤ m := by omega
    exact congrArg (fun t => (m + 1) % 2 + t)
      (pcAux_congr ((m + 1) / 2) m ((m + 1) / 2) hle le_rfl)

theorem popCount_zero : popCount 0 = 0 := rfl

/-- `popCount` of one binary digit stacked on `n`. -/
theorem popCount_two_mul_add (n b : Nat) (hb : b < 2) :
    popCount (2 * n + b) = popCount n + b := by
  by_cases h0 : 2 * n + b = 0
  · have hn : n = 0 := by omega
    have hb0 : b = 0 := by omega
    subst hn; subst hb0; simp [popCount_zero]
  · rw [popCount_eq, if_neg h0]
    have hmod : (2 * n + b) % 2 = b := by omega
    have hdiv : (2 * n + b) / 2 = n := by omega
    rw [hmod, hdiv]; omega

/-- Splitting `popCount` at a power-of-two boundary. -/
theorem popCount_split (k m r : Nat) (hr : r < 2 ^ k) :
    popCount (2 ^ k * m + r) = popCount m + popCount r := by
  induction k generalizing r with
  | zero =>
    have : r = 0 := by simpa using hr
    subst this; simp [popCount_zero]
  | succ k ih =>
    have hrewrite : 2 ^ (k + 1) * m + r = 2 * (2 ^ k * m + r / 2) + r % 2 := by
      have hmod : 2 * (r / 2) + r % 2 = r := Nat.div_add_mod r 2
      have hpow : 2 ^ (k + 1) = 2 * 2 ^ k := by rw [pow_succ]; ring
      calc 2 ^ (k + 1) * m + r = 2 * 2 ^ k * m + (2 * (r / 2) + r % 2) := by
            rw [hpow, hmod]
        _ = 2 * (2 ^ k * m + r / 2) + r % 2 := by ring
    have hr2 : r / 2 < 2 ^ k := by
      rw [Nat.div_lt_iff_lt_mul Nat.two_pos]
      calc r < 2 ^ (k + 1) := hr
        _ = 2 ^ k * 2 := by rw [pow_succ]
    have hrsplit : popCount r = popCount (r / 2) + r % 2 := by
      have := popCount_two_mul_add (r / 2) (r % 2) (Nat.mod_lt r Nat.two_pos)
      rw [Nat.div_add_mod r 2] at this
      exact this
    rw [hrewrite, popCount_two_mul_add _ _ (Nat.mod_lt _ Nat.two_pos), ih _ hr2,
      hrsplit]
    ring

/-- XOR distributes over one stacked binary digit. -/
theorem xor_two_mul_add (x y u v : Nat) (hu : u < 2) (hv : v < 2) :
    (2 * x + u) ^^^ (2 * y + v) = 2 * (x ^^^ y) + (u ^^^ v) := by
  have hu' : u = 0 ∨ u = 1 := by omega
  have hv' : v = 0 ∨ v = 1 := by omega
  rcases hu' with rfl | rfl <;> rcases hv' with rfl | rfl
  · simpa [Nat.bit_val] using Nat.xor_bit false x false y
  · simpa [Nat.bit_val] using Nat.xor_bit false x true y
  · simpa [Nat.bit_val] using Nat.xor_bit true x false y
  · simpa [Nat.bit_val] using Nat.xor_bit true x true y

/-- XOR distributes across a power-of-two split. -/
theorem xor_pow_split : ∀ (k x y r s : Nat), r < 2 ^ k → s < 2 ^ k →
    (2 ^ k * x + r) ^^^ (2 ^ k * y + s) = 2 ^ k * (x ^^^ y) + (r ^^^ s) := by
  intro k
  induction k with
  | zero =>
    intro x y r s hr hs
    have hr0 : r = 0 := by simpa using hr
    have hs0 : s = 0 := by simpa using hs
    subst hr0; subst hs0; simp
  | succ k ih =>
    intro x y r s hr hs
    have hr2 : r / 2 < 2 ^ k := by
      rw [Nat.div_lt_iff_lt_mul Nat.two_pos]
      calc r < 2 ^ (k + 1) := hr
        _ = 2 ^ k * 2 := by rw [pow_succ]
    have hs2 : s / 2 < 2 ^ k := by
      rw [Nat.div_lt_iff_lt_mul Nat.two_pos]
      calc s < 2 ^ (k + 1) := hs
        _ = 2 ^ k * 2 := by rw [pow_succ]
    have hrw : ∀ t : Nat, 2 ^ (k + 1) * t + r = 2 * (2 ^ k * t + r / 2) + r % 2 := by
      intro t
      have hmod : 2 * (r / 2) + r % 2 = r := Nat.div_add_mod r 2
      have hpow : 2 ^ (k + 1) = 2 * 2 ^ k := by rw [pow_succ]; ring
      calc 2 ^ (k + 1) * t + r = 2 * 2 ^ k * t + (2 * (r / 2) + r % 2) := by
            rw [hpow, hmod]
        _ = 2 * (2 ^ k * t + r / 2) + r % 2 := by ring
    have hsw : ∀ t : Nat, 2 ^ (k + 1) * t + s = 2 * (2 ^ k * t + s / 2) + s % 2 := by
      intro t
      have hmod : 2 * (s / 2) + s % 2 = s := Nat.div_add_mod s 2
      have hpow : 2 ^ (k + 1) = 2 * 2 ^ k := by rw [pow_succ]; ring
      calc 2 ^ (k + 1) * t + s = 2 * 2 ^ k * t + (2 * (s / 2) + s % 2) := by
            rw [hpow, hmod]
        _ = 2 * (2 ^ k * t + s / 2) + s % 2 := by ring
    have hback : r ^^^ s = 2 * (r / 2 ^^^ s / 2) + (r % 2 ^^^ s % 2) := by
      conv_lhs => rw [← Nat.div_add_mod r 2, ← Nat.div_add_mod s 2]
      exact xor_two_mul_add _ _ _ _ (Nat.mod_lt _ Nat.two_pos) (Nat.mod_lt _ Nat.two_pos)
    rw [hrw x, hsw y,
      xor_two_mul_add _ _ _ _ (Nat.mod_lt _ Nat.two_pos) (Nat.mod_lt _ Nat.two_pos),
      ih x y (r / 2) (s / 2) hr2 hs2, hback]
    have hpow : 2 ^ (k + 1) = 2 * 2 ^ k := by rw [pow_succ]; ring
    rw [hpow]; ring

/-- XOR of two binary digits is a binary digit. -/
theorem xor_lt_two (u v : Nat) (hu : u < 2) (hv : v < 2) : u ^^^ v < 2 := by
  have hu' : u = 0 ∨ u = 1 := by omega
  have hv' : v = 0 ∨ v = 1 := by omega
  rcases hu' with rfl | rfl <;> rcases hv' with rfl | rfl <;> decide

/-- XOR stays below a shared power-of-two bound. -/
theorem xor_lt_pow : ∀ (k r s : Nat), r < 2 ^ k → s < 2 ^ k → r ^^^ s < 2 ^ k := by
  intro k
  induction k with
  | zero =>
    intro r s hr hs
    have hr0 : r = 0 := by simpa using hr
    have hs0 : s = 0 := by simpa using hs
    subst hr0; subst hs0; decide
  | succ k ih =>
    intro r s hr hs
    have hr2 : r / 2 < 2 ^ k := by
      rw [Nat.div_lt_iff_lt_mul Nat.two_pos]
      calc r < 2 ^ (k + 1) := hr
        _ = 2 ^ k * 2 := by rw [pow_succ]
    have hs2 : s / 2 < 2 ^ k := by
      rw [Nat.div_lt_iff_lt_mul Nat.two_pos]
      calc s < 2 ^ (k + 1) := hs
        _ = 2 ^ k * 2 := by rw [pow_succ]
    have hback : r ^^^ s = 2 * (r / 2 ^^^ s / 2) + (r % 2 ^^^ s % 2) := by
      conv_lhs => rw [← Nat.div_add_mod r 2, ← Nat.div_add_mod s 2]
      exact xor_two_mul_add _ _ _ _ (Nat.mod_lt _ Nat.two_pos) (Nat.mod_lt _ Nat.two_pos)
    have hbit : r % 2 ^^^ s % 2 < 2 :=
      xor_lt_two (r % 2) (s % 2) (Nat.mod_lt _ Nat.two_pos) (Nat.mod_lt _ Nat.two_pos)
    have := ih (r / 2) (s / 2) hr2 hs2
    rw [hback]
    have hpow : 2 ^ (k + 1) = 2 * 2 ^ k := by rw [pow_succ]; ring
    omega


/-- Every hex digit value is below 16. -/
theorem hexDigitVal_lt {c d : Nat} (h : hexDigitVal c = some d) : d < 16 := by
  unfold hexDigitVal at h
  split_ifs at h with h1 h2 h3 <;> simp_all <;> omega

/-- A decoded hex string has half as many bytes as digits. -/
theorem fromhex_length : ∀ {s bs : List Nat}, fromhex s = some bs →
    s.length = 2 * bs.length
  | [], bs, h => by
    simp only [fromhex, Option.some.injEq] at h
    subst h; rfl
  | [_], bs, h => by simp [fromhex] at h
  | c1 :: c2 :: rest, bs, h => by
    simp only [fromhex] at h
    cases h1 : hexDigitVal c1 with
    | none => rw [h1] at h; simp at h
    | some d1 =>
      cases h2 : hexDigitVal c2 with
      | none => rw [h1, h2] at h; simp at h
      | some d2 =>
        rw [h1, h2] at h
        cases hr : fromhex rest with
        | none => rw [hr] at h; simp at h
        | some bs' =>
          rw [hr] at h
          have hbs : (16 * d1 + d2) :: bs' = bs := by simpa using h
          subst hbs
          have := fromhex_length hr
          simp [List.length_cons]
          omega

/-- Every byte produced by `fromhex` is below 256. -/
theorem fromhex_lt : ∀ {s bs : List Nat}, fromhex s = some bs →
    ∀ x ∈ bs, x < 256
  | [], bs, h => by
    simp only [fromhex, Option.some.injEq] at h
    subst h; simp
  | [_], bs, h => by simp [fromhex] at h
  | c1 :: c2 :: rest, bs, h => by
    simp only [fromhex] at h
    cases h1 : hexDigitVal c1 with
    | none => rw [h1] at h; simp at h
    | some d1 =>
      cases h2 : hexDigitVal c2 with
      | none => rw [h1, h2] at h; simp at h
      | some d2 =>
        rw [h1, h2] at h
        cases hr : fromhex rest with
        | none => rw [hr] at h; simp at h
        | some bs' =>
          rw [hr] at h
          have hbs : (16 * d1 + d2) :: bs' = bs := by simpa using h
          subst hbs
          intro x hx
          rcases List.mem_cons.mp hx with rfl | hx'
          · have hd1 := hexDigitVal_lt h1
            have hd2 := hexDigitVal_lt h2
            omega
          · exact fromhex_lt hr x hx'

/-- On a string `fromhex` accepts, positional hex accumulation computes the
big-endian byte value (relative to any accumulator). -/
theorem hexToNatAux_fromhex : ∀ {s bs : List Nat}, fromhex s = some bs →
    ∀ acc : Nat, hexToNatAux s acc = some (List.foldl (fun a b => 256 * a + b) acc bs)
  | [], bs, h => by
    simp only [fromhex, Option.some.injEq] at h
    subst h; intro acc; rfl
  | [_], bs, h => by simp [fromhex] at h
  | c1 :: c2 :: rest, bs, h => by
    simp only [fromhex] at h
    cases h1 : hexDigitVal c1 with
    | none => rw [h1] at h; simp at h
    | some d1 =>
      cases h2 : hexDigitVal c2 with
      | none => rw [h1, h2] at h; simp at h
      | some d2 =>
        rw [h1, h2] at h
        cases hr : fromhex rest with
        | none => rw [hr] at h; simp at h
        | some bs' =>
          rw [hr] at h
          have hbs : (16 * d1 + d2) :: bs' = bs := by simpa using h
          subst hbs
          intro acc
          have step : hexToNatAux (c1 :: c2 :: rest) acc
              = hexToNatAux rest (16 * (16 * acc + d1) + d2) := by
            simp [hexToNatAux, h1, h2]
          rw [step, hexToNatAux_fromhex hr]
          have : 16 * (16 * acc + d1) + d2 = 256 * acc + (16 * d1 + d2) := by ring
          rw [this]
          rfl

/-- On a nonempty string `fromhex` accepts, `int(s, 16)` succeeds and
returns the big-endian value of the decoded bytes. -/
theorem int16_fromhex {s bs : List Nat} (h : fromhex s = some bs) (hne : s ≠ []) :
    int16 s = some (bytesToNat bs) := by
  unfold int16
  rw [if_neg (by simpa using hne)]
  exact hexToNatAux_fromhex h 0

/-- `bytesToNat` peels its last byte. -/
theorem bytesToNat_concat (xs : List Nat) (x : Nat) :
    bytesToNat (xs ++ [x]) = 256 * bytesToNat xs + x := by
  simp [bytesToNat]

/-- Population count of a XOR of equal-length byte strings is the sum of
the per-byte population counts. -/
theorem popCount_xor_bytes : ∀ (b1 b2 : List Nat), b1.length = b2.length →
    (∀ x ∈ b1, x < 256) → (∀ x ∈ b2, x < 256) →
    popCount (bytesToNat b1 ^^^ bytesToNat b2)
      = (List.zipWith (fun a b => popCount (a ^^^ b)) b1 b2).sum := by
  intro b1
  induction b1 using List.reverseRecOn with
  | nil =>
    intro b2 hlen _ _
    have : b2 = [] := List.eq_nil_of_length_eq_zero hlen.symm
    subst this
    simp [bytesToNat, popCount_zero]
  | append_singleton xs x ih =>
    intro b2 hlen hx hy
    rcases List.eq_nil_or_concat' b2 with rfl | ⟨ys, y, rfl⟩
    · simp at hlen
    · have hlen' : xs.length = ys.length := by
        simp at hlen; omega
      have hx' : ∀ a ∈ xs, a < 256 := fun a ha => hx a (List.mem_append_left _ ha)
      have hy' : ∀ a ∈ ys, a < 256 := fun a ha => hy a (List.mem_append_left _ ha)
      have hxlt : x < 256 := hx x (List.mem_append_right _ (List.mem_singleton_self x))
      have hylt : y < 256 := hy y (List.mem_append_right _ (List.mem_singleton_self y))
      have h256 : (256 : Nat) = 2 ^ 8 := by norm_num
      rw [bytesToNat_concat, bytesToNat_concat, h256]
      rw [xor_pow_split 8 (bytesToNat xs) (bytesToNat ys) x y (by omega) (by omega)]
      rw [popCount_split 8 _ _ (xor_lt_pow 8 x y (by omega) (by omega))]
      rw [ih ys hlen' hx' hy']
      rw [List.zipWith_append _ _ _ _ _ hlen']
      simp



namespace Merkle

/-- Each construction pass halves the node count, rounding up. -/
theorem levelUp_length (H : List Nat → List Nat) :
    ∀ nodes : List (List Nat), (levelUp H nodes).length = (nodes.length + 1) / 2
  | [] => by simp [levelUp]
  | [_] => by simp [levelUp]
  | _ :: _ :: rest => by
    simp [levelUp, levelUp_length H rest]
    omega

/-- Entry `j` of a folded level is the hash of the pair starting at `2*j`,
the dangling last node of an odd level being paired with itself. -/
theorem levelUp_getD (H : List Nat → List Nat) :
    ∀ (nodes : List (List Nat)) (j : Nat), 2 * j < nodes.length →
      (levelUp H nodes).getD j []
        = H (nodes.getD (2 * j) [] ++
            (if 2 * j + 1 < nodes.length then nodes.getD (2 * j + 1) [] else nodes.getD (2 * j) []))
  | [], j, h => by simp at h
  | [a], j, h => by
    have hj : j = 0 := by simp at h; omega
    subst hj
    simp [levelUp]
  | a :: b :: rest, 0, h => by
    have : 0 + 1 < (a :: b :: rest).length := by simp
    simp [levelUp]
  | a :: b :: rest, j + 1, h => by
    have h' : 2 * j < rest.length := by simp at h; omega
    have ih := levelUp_getD H rest j h'
    have e1 : 2 * (j + 1) = 2 * j + 1 + 1 := by ring
    have e2 : 2 * (j + 1) + 1 = 2 * j + 1 + 1 + 1 := by ring
    rw [e1]
    by_cases hc : 2 * j + 1 < rest.length
    · have hc' : 2 * j + 1 + 1 + 1 < (a :: b :: rest).length := by simp; omega
      rw [if_pos (e2 ▸ hc' : 2 * j + 1 + 1 + 1 < (a :: b :: rest).length)]
      simp only [levelUp, List.getD_cons_succ]
      rw [ih, if_pos hc]
    · have hc' : ¬ (2 * j + 1 + 1 + 1 < (a :: b :: rest).length) := by simp; omega
      rw [if_neg hc']
      simp only [levelUp, List.getD_cons_succ]
      rw [ih, if_neg hc]

/-- Folding the proof element of one level onto the tracked node gives the
parent node at the halved index of the folded level. -/
theorem chainStep_proofStep (H : List Nat → List Nat) (nodes : List (List Nat))
    (idx : Nat) (h : idx < nodes.length) :
    chainStep H (nodes.getD idx []) (proofStep nodes idx)
      = (levelUp H nodes).getD (idx / 2) [] := by
  have hpair : 2 * (idx / 2) < nodes.length := by omega
  rw [levelUp_getD H nodes (idx / 2) hpair]
  rcases Nat.mod_two_eq_zero_or_one idx with hm | hm
  · have hidx : 2 * (idx / 2) = idx := by omega
    simp [proofStep, chainStep, hm]
    rw [hidx]
  · have hidx : 2 * (idx / 2) + 1 = idx := by omega
    have hlt : 2 * (idx / 2) + 1 < nodes.length := by omega
    simp only [proofStep, hm, chainStep]
    norm_num
    rw [if_pos hlt, hidx]

/-- Folding the collected sibling path from the tracked node recomputes the
single node the construction loop ends with, for any sufficient fuel. -/
theorem proofIter_fold (H : List Nat → List Nat) :
    ∀ (f : Nat) (nodes : List (List Nat)) (idx : Nat),
      nodes.length ≤ f + 1 → 1 ≤ nodes.length → idx < nodes.length →
      List.foldl (chainStep H) (nodes.getD idx []) (proofIter H f nodes idx)
        = (buildIter H f nodes).headD [] := by
  intro f
  induction f with
  | zero =>
    intro nodes idx hf h1 hidx
    have hlen : nodes.length = 1 := by omega
    match nodes, hlen with
    | [a], _ =>
      have : idx = 0 := by simp at hidx; omega
      subst this
      simp [proofIter, buildIter]
  | succ f ih =>
    intro nodes idx hf h1 hidx
    by_cases hle : nodes.length ≤ 1
    · have hlen : nodes.length = 1 := by omega
      match nodes, hlen with
      | [a], _ =>
        have : idx = 0 := by simp at hidx; omega
        subst this
        simp [proofIter, buildIter]
    · have hgt : ¬ nodes.length ≤ 1 := hle
      simp only [proofIter, buildIter, if_neg hgt]
      rw [List.foldl_cons, chainStep_proofStep H nodes idx hidx]
      have hl : (levelUp H nodes).length = (nodes.length + 1) / 2 := levelUp_length H nodes
      exact ih (levelUp H nodes) (idx / 2) (by omega) (by omega) (by omega)

end Merkle

namespace Dhash

/-- A solid image stays solid under the PIL center crop. -/
theorem centerCrop_const (img : Img) (c : Nat × Nat × Nat) (s : Nat)
    (h : img.IsConst c) : (centerCrop img s).IsConst c := by
  intro x y hx hy
  simp only [centerCrop] at hx hy ⊢
  apply h
  · omega
  · omega

/-- Block averaging maps a constant array to a constant array (both the
averaged branch and the degenerate pass-through). -/
theorem block_average_const (m : Mat ℚ) (b : Nat) (q : ℚ) (hb : 0 < b)
    (h : m.IsConst q) : (block_average m b).IsConst q := by
  intro i j
  by_cases hc : 0 < m.h / b ∧ 0 < m.w / b
  · simp only [block_average, if_pos hc]
    have hsum : (∑ a ∈ Finset.range b, ∑ c ∈ Finset.range b, m.px (b * i + a) (b * j + c))
        = (b : ℚ) * ((b : ℚ) * q) := by
      have : ∀ a ∈ Finset.range b, (∑ c ∈ Finset.range b, m.px (b * i + a) (b * j + c))
          = (b : ℚ) * q := by
        intro a _
        rw [Finset.sum_congr rfl (fun c _ => h (b * i + a) (b * j + c))]
        simp [Finset.sum_const, Finset.card_range, nsmul_eq_mul]
      rw [Finset.sum_congr rfl this]
      simp [Finset.sum_const, Finset.card_range, nsmul_eq_mul]
    rw [hsum]
    have hbq : (b : ℚ) ≠ 0 := Nat.cast_ne_zero.mpr (by omega)
    field_simp
    ring
  · simp only [block_average, if_neg hc]
    exact h i j

/-- Every gradient bit of a constant array is `false` (a strict comparison
of equal entries). -/
theorem gradientBits_const {α : Type} [LT α] [∀ x y : α, Decidable (x < y)]
    (m : Mat α) (q : α) (h : m.IsConst q) (hq : ¬ q < q) :
    ∀ bit ∈ gradientBits m, bit = false := by
  intro bit hbit
  unfold gradientBits at hbit
  rcases List.mem_map.mp hbit with ⟨rc, _, rfl⟩
  have h' : ∀ i j, m.px i j = q := h
  simp only [h']
  exact decide_eq_false hq

/-- `int(bitstring, 2)` of an all-zero bit row is zero. -/
theorem bitsToNat_allFalse : ∀ bits : List Bool, (∀ bit ∈ bits, bit = false) →
    bitsToNat bits = 0
  | [], _ => rfl
  | bit :: rest, h => by
    have hb : bit = false := h bit (List.mem_cons_self bit rest)
    have hr := bitsToNat_allFalse rest (fun x hx => h x (List.mem_cons_of_mem bit hx))
    subst hb
    simpa [bitsToNat, List.foldl_cons] using hr

/-- The shift-or packing loop of `pack_bits_fast` returns zero on an
all-zero bit row. -/
theorem packFold_allFalse : ∀ bits : List Bool, (∀ bit ∈ bits, bit = false) →
    List.foldl (fun a b => (a <<< 1) ||| b.toNat) 0 bits = 0
  | [], _ => rfl
  | bit :: rest, h => by
    have hb : bit = false := h bit (List.mem_cons_self bit rest)
    have hr := packFold_allFalse rest (fun x hx => h x (List.mem_cons_of_mem bit hx))
    subst hb
    simpa [List.foldl_cons] using hr

/-- `f'{0:016x}'` is sixteen `'0'` characters. -/
theorem hexPad16_zero : hexPad16 0 = List.replicate 16 48 := by decide

/-- The gradient pass always produces exactly 64 bits, whatever the
array. -/
theorem gradientBits_length {α : Type} [LT α] [∀ x y : α, Decidable (x < y)]
    (m : Mat α) : (gradientBits m).length = 64 := by
  unfold gradientBits
  rw [List.length_map]
  decide

/-- The bit-accumulation fold is bounded by the bit count. -/
theorem foldl_bits_lt : ∀ (bits : List Bool) (a : Nat),
    List.foldl (fun x b => 2 * x + b.toNat) a bits < (a + 1) * 2 ^ bits.length
  | [], a => by simp
  | bit :: rest, a => by
    have h := foldl_bits_lt rest (2 * a + bit.toNat)
    have hb : bit.toNat ≤ 1 := Bool.toNat_le bit
    calc List.foldl (fun x b => 2 * x + b.toNat) a (bit :: rest)
        = List.foldl (fun x b => 2 * x + b.toNat) (2 * a + bit.toNat) rest := by
          simp [List.foldl_cons]
      _ < (2 * a + bit.toNat + 1) * 2 ^ rest.length := h
      _ ≤ (a + 1) * 2 ^ (bit :: rest).length := by
          simp only [List.length_cons, pow_succ]
          nlinarith [Nat.pos_pow_of_pos rest.length (show 0 < 2 by omega)]

/-- `int(bitstring, 2)` of 64 bits is below `2 ^ 64`. -/
theorem bitsToNat_lt (bits : List Bool) : bitsToNat bits < 2 ^ bits.length := by
  simpa [bitsToNat] using foldl_bits_lt bits 0

/-- The length of a fuelled hex rendering is bounded by the magnitude of
the argument. -/
theorem hexDigitsAux_length : ∀ (k f n : Nat) (acc : List Nat), n < 16 ^ (k + 1) →
    (hexDigitsAux f n acc).length ≤ acc.length + k + 1 := by
  intro k
  induction k with
  | zero =>
    intro f n acc hn
    match f with
    | 0 => simp [hexDigitsAux]
    | f + 1 =>
      have h16 : n < 16 := by simpa using hn
      simp [hexDigitsAux, if_pos h16]
  | succ k ih =>
    intro f n acc hn
    match f with
    | 0 => simp only [hexDigitsAux]; omega
    | f + 1 =>
      by_cases h16 : n < 16
      · simp only [hexDigitsAux, if_pos h16, List.length_cons]
        omega
      · simp only [hexDigitsAux, if_neg h16]
        have hdiv : n / 16 < 16 ^ (k + 1) := by
          rw [Nat.div_lt_iff_lt_mul (by omega : 0 < 16)]
          calc n < 16 ^ (k + 1 + 1) := hn
            _ = 16 ^ (k + 1) * 16 := by rw [pow_succ]
        have := ih f (n / 16) (hexDigitChar (n % 16) :: acc) hdiv
        simp at this
        omega

/-- `f'{n:016x}'` has exactly 16 characters whenever `n < 16 ^ 16` —
in particular for every 64-bit value. -/
theorem hexPad16_length (n : Nat) (h : n < 16 ^ 16) : (hexPad16 n).length = 16 := by
  have hlen : (hexDigits n).length ≤ 16 := by
    have := hexDigitsAux_length 15 (n + 1) n [] (by simpa using h)
    simpa [hexDigits] using this
  simp only [hexPad16, List.length_append, List.length_replicate]
  omega

/-- A globally constant array is constant on its extent. -/
theorem Mat.IsConst.within {α : Type} {m : Mat α} {q : α} (h : m.IsConst q) :
    m.IsConstW q := fun i j _ _ => h i j

/-- `np.array(img)` of a solid image is constant on its extent. -/
theorem imgToArray_constW (img : Img) (c : Nat × Nat × Nat) (h : img.IsConst c) :
    (imgToArray img).IsConstW c := by
  intro i j hi hj
  exact h j i hj hi

/-- The numpy slice crop preserves extent constancy. -/
theorem sliceCrop_constW (m : Mat (Nat × Nat × Nat)) (c : Nat × Nat × Nat) (s : Nat)
    (h : m.IsConstW c) : (sliceCrop m s).IsConstW c := by
  intro i j hi hj
  simp only [sliceCrop] at hi hj ⊢
  apply h <;> omega

/-- Fast grayscale conversion of an extent-constant array is
extent-constant. -/
theorem rgb_to_gray_fast_constW (m : Mat (Nat × Nat × Nat)) (c : Nat × Nat × Nat)
    (h : m.IsConstW c) :
    (rgb_to_gray_fast m).IsConstW
      ((299 / 1000 : ℚ) * c.1 + (587 / 1000 : ℚ) * c.2.1 + (114 / 1000 : ℚ) * c.2.2) := by
  intro i j hi hj
  simp only [rgb_to_gray_fast] at hi hj ⊢
  rw [h i j hi hj]

/-- The `uint8` cast of a constant array is constant. -/
theorem matToU8_const (m : Mat ℚ) (q : ℚ) (h : m.IsConst q) :
    (matToU8 m).IsConst (ratToU8 q) := by
  intro i j
  simp only [matToU8]
  rw [h i j]

/-- The `astype(int)` cast of a constant array is constant. -/
theorem matTrunc_const (m : Mat ℚ) (q : ℚ) (h : m.IsConst q) :
    (matTrunc m).IsConst (Int.tdiv q.num (q.den : Int)) := by
  intro i j
  simp only [matTrunc]
  rw [h i j]

end Dhash

namespace Merkle

/-- `build_tree` never changes the leaf list. -/
theorem build_tree_leaves (H : List Nat → List Nat) (t : MerkleTree) :
    (build_tree H t).1.leaves = t.leaves := by
  unfold build_tree
  split <;> rfl

/-- On a nonempty leaf list, `build_tree` caches and returns the
recomputed root. -/
theorem build_tree_nonempty (H : List Nat → List Nat) (t : MerkleTree)
    (hne : t.leaves ≠ []) :
    build_tree H t = ({ t with root := some (buildRoot H (t.leaves.map H)) },
      some (buildRoot H (t.leaves.map H))) := by
  have : t.leaves.isEmpty = false := by
    cases h : t.leaves with
    | nil => exact absurd h hne
    | cons a l => simp
  simp [build_tree, this]

/-- Re-adding a list of manifest leaves appends their preimages in
order. -/
theorem foldl_add_leaf (ls : List ManifestLeaf) : ∀ s : MerkleTree,
    (List.foldl (fun s l => add_leaf s l.dna_hex l.pointer l.platform_id l.timestamp) s ls).leaves
      = s.leaves ++ ls.map (fun l => mkLeafData l.dna_hex l.pointer l.platform_id l.timestamp) := by
  induction ls with
  | nil => intro s; simp
  | cons l rest ih =>
    intro s
    rw [List.foldl_cons, ih]
    simp [add_leaf]

end Merkle

/-! ## Claims -/

namespace Merkle

/-- Claim C3 (confirmed).  Proof soundness: for every tree and every leaf
index `i` below the leaf count, after `build_tree` the call
`get_proof(i)` succeeds and `verify_proof(leaf_i, proof, root)` returns
`True` — for every digest function, hence in particular for trees whose
levels have odd node counts (the self-paired last node is handled by the
same pairing rule on both sides). -/
theorem claim_C3_proof_soundness (H : List Nat → List Nat) (t : MerkleTree)
    (i : Nat) (hi : i < t.leaves.length) :
    ∃ p r, get_proof H (build_tree H t).1 i = Except.ok p ∧
      get_root (build_tree H t).1 = some r ∧
      verify_proof H (t.leaves.getD i []) p r = true := by
  have hne : t.leaves.isEmpty = false := by
    cases hL : t.leaves with
    | nil => rw [hL] at hi; simp at hi
    | cons a l => simp [hL]
  have hbuild : (build_tree H t).1
      = { t with root := some (buildRoot H (t.leaves.map H)) } := by
    simp [build_tree, hne]
  refine ⟨proofIter H t.leaves.length (t.leaves.map H) i,
    buildRoot H (t.leaves.map H), ?_, ?_, ?_⟩
  · rw [hbuild]
    unfold get_proof
    rw [if_neg (by simp; omega)]
    rfl
  · rw [hbuild]
    rfl
  · have hstart : (t.leaves.map H).getD i [] = H (t.leaves.getD i []) := by
      rw [List.getD_eq_getElem _ _ (by simpa using hi),
        List.getD_eq_getElem _ _ hi, List.getElem_map]
    have hfold := proofIter_fold H t.leaves.length (t.leaves.map H) i
      (by simp) (by simp; omega) (by simpa using hi)
    unfold verify_proof
    rw [← hstart, hfold]
    have hroot : buildRoot H (t.leaves.map H)
        = (buildIter H t.leaves.length (t.leaves.map H)).headD [] := by
      unfold buildRoot
      rw [List.length_map]
    rw [hroot]
    exact beq_self_eq_true _

/-- Witness for C3 at a five-leaf tree and the index whose path traverses
the self-paired nodes (5 → 3 → 2 → 1 levels). -/
theorem claim_C3_witness :
    ∃ p r, get_proof testHash (build_tree testHash treeFive).1 4 = Except.ok p ∧
      get_root (build_tree testHash treeFive).1 = some r ∧
      verify_proof testHash (treeFive.leaves.getD 4 []) p r = true :=
  claim_C3_proof_soundness testHash treeFive 4 (by decide)

/-- Counterexample to claim C4 as stated: on a built one-leaf tree,
appending a second leaf leaves the cached root in place — `get_root`
afterwards still returns the pre-append root and not the root of the new
two-leaf sequence. -/
theorem claim_C4_counterexample :
    get_root (add_leaf builtOne [2] [3] [4] 5) = get_root builtOne ∧
    get_root (add_leaf builtOne [2] [3] [4] 5)
      ≠ some (buildRoot testHash ((add_leaf builtOne [2] [3] [4] 5).leaves.map testHash)) := by
  constructor
  · rfl
  · decide

/-- Claim C4 amended (corrected).  `add_leaf` does not invalidate the
cached root: `get_root` after an append still returns whatever root was
cached before, and only an explicit `build_tree` call recomputes — and
then returns the root of the grown leaf sequence. -/
theorem claim_C4_amended (H : List Nat → List Nat) (t : MerkleTree)
    (dna ptr pid : List Nat) (ts : Nat) :
    get_root (add_leaf t dna ptr pid ts) = get_root t ∧
    (build_tree H (add_leaf t dna ptr pid ts)).2
      = some (buildRoot H ((t.leaves ++ [mkLeafData dna ptr pid ts]).map H)) := by
  constructor
  · rfl
  · have hne : (add_leaf t dna ptr pid ts).leaves.isEmpty = false := by
      simp [add_leaf]
    simp [build_tree, hne, add_leaf]

/-- Counterexample to claim C5 as stated: importing a manifest whose
declared root mismatches raises the malformed-manifest error, yet the
tree's leaf list has been replaced by the manifest's leaves — the
pre-call state is not restored. -/
theorem claim_C5_counterexample :
    (import_manifest testHash builtOne badManifest).2 = some MerkleError.rootMismatch ∧
    (import_manifest testHash builtOne badManifest).1.leaves ≠ builtOne.leaves := by
  constructor
  · decide
  · decide

/-- Claim C5 amended (corrected).  `import_manifest` mutates first and
validates last: after the call (error or not) the tree's leaves are the
manifest's leaf preimages, and the error fires exactly when the rebuilt
root differs from the declared one; on error the previous state is
destroyed, not preserved. -/
theorem claim_C5_amended (H : List Nat → List Nat) (t : MerkleTree) (m : Manifest) :
    (import_manifest H t m).1.leaves
      = m.leaves.map (fun l => mkLeafData l.dna_hex l.pointer l.platform_id l.timestamp) ∧
    ((import_manifest H t m).2 = some MerkleError.rootMismatch
      ↔ get_root (import_manifest H t m).1 ≠ some m.root) := by
  simp only [import_manifest]
  constructor
  · split <;> (dsimp only; rw [build_tree_leaves, foldl_add_leaf]; rfl)
  · split
    · rename_i hroot
      dsimp only
      simp [hroot]
    · rename_i hroot
      dsimp only
      simp [hroot]

/-- Claim C6 (confirmed).  Empty-tree behaviour: a fresh tree reports no
root, building an empty tree caches and returns no root, and `get_proof`
on a leafless tree fails with the out-of-range `IndexError` for every
index. -/
theorem claim_C6_empty_tree :
    get_root MerkleTree.init = none ∧
    (∀ (H : List Nat → List Nat) (t : MerkleTree), t.leaves = [] →
      (build_tree H t).1.root = none ∧ (build_tree H t).2 = none) ∧
    (∀ (H : List Nat → List Nat) (t : MerkleTree) (i : Nat), t.leaves = [] →
      get_proof H t i = Except.error MerkleError.outOfRange) := by
  refine ⟨rfl, ?_, ?_⟩
  · intro H t h
    have : t.leaves.isEmpty = true := by simp [h]
    constructor <;> simp [build_tree, this]
  · intro H t i h
    unfold get_proof
    rw [if_pos (by simp [h])]

/-- Witness for C6: the freshly initialised tree, index 7. -/
theorem claim_C6_witness :
    (build_tree testHash MerkleTree.init).2 = none ∧
    get_proof testHash MerkleTree.init 7 = Except.error MerkleError.outOfRange :=
  ⟨(claim_C6_empty_tree.2.1 testHash MerkleTree.init rfl).2,
    claim_C6_empty_tree.2.2 testHash MerkleTree.init 7 rfl⟩

/-- Claim C7 (confirmed).  Single-leaf tree: building a one-leaf tree
returns the digest of that leaf's preimage as root (the digest function
being the BLAKE3 / SHA-256 parameter), and the proof for index 0 is the
empty path. -/
theorem claim_C7_single_leaf (H : List Nat → List Nat) (t : MerkleTree)
    (l : List Nat) (h : t.leaves = [l]) :
    (build_tree H t).2 = some (H l) ∧
    get_proof H (build_tree H t).1 0 = Except.ok [] := by
  rcases t with ⟨lv, rt⟩
  simp only at h
  subst h
  constructor
  · rfl
  · rfl

/-- Witness for C7 at a concrete one-leaf tree. -/
theorem claim_C7_witness :
    (build_tree testHash { leaves := [[7]], root := none }).2 = some (testHash [7]) ∧
    get_proof testHash (build_tree testHash { leaves := [[7]], root := none }).1 0
      = Except.ok [] :=
  claim_C7_single_leaf testHash { leaves := [[7]], root := none } [7] rfl

end Merkle

namespace Register

/-- Claim C1 (confirmed, modelled from the duplicate check onward —
`compute_dna` runs before any registry state is read and its failure path
returns without touching anything).  `register_image` is atomic: when the
duplicate verdict fires the call returns the rejection and the persisted
leaf list — hence the registry leaf sequence, its Merkle root and the tree
file — is exactly the input one; otherwise the persisted leaf list grows
by exactly the one new leaf and the returned root is the recomputed root
of the grown sequence.  (A `raised` outcome — malformed registry entries —
also leaves the file untouched.) -/
theorem claim_C1_register_atomic (H : List Nat → List Nat)
    (fileLeaves : List (List Nat)) (new_dna pointer platform_id : List Nat)
    (timestamp : Nat) (threshold : ℚ) :
    register_image H fileLeaves new_dna pointer platform_id timestamp threshold =
      match check_for_duplicates new_dna (fileLeaves.map leafDna) threshold with
      | some (true, some info) => (RegOutcome.rejected new_dna info, fileLeaves)
      | some (false, best) =>
        (RegOutcome.accepted new_dna pointer platform_id timestamp
          (some (Merkle.buildRoot H
            ((fileLeaves ++ [Merkle.mkLeafData new_dna pointer platform_id timestamp]).map H)))
          (fileLeaves.length + 1) best,
         fileLeaves ++ [Merkle.mkLeafData new_dna pointer platform_id timestamp])
      | _ => (RegOutcome.raised, fileLeaves) := by
  have hl2 : (load_merkle_tree H fileLeaves).2 = fileLeaves.map leafDna := by
    simp [load_merkle_tree]
  have hl1 : (load_merkle_tree H fileLeaves).1.leaves = fileLeaves := by
    simp only [load_merkle_tree]
    split
    · rfl
    · rw [Merkle.build_tree_leaves]
  rcases hcheck : check_for_duplicates new_dna (fileLeaves.map leafDna) threshold
    with _ | ⟨b, info⟩
  · simp only [register_image]
    rw [hl2, hcheck]
  · cases b with
    | true =>
      cases info with
      | none =>
        simp only [register_image]
        rw [hl2, hcheck]
      | some i =>
        simp only [register_image]
        rw [hl2, hcheck]
    | false =>
      simp only [register_image]
      rw [hl2, hcheck]
      have hadd : (Merkle.add_leaf (load_merkle_tree H fileLeaves).1 new_dna pointer
          platform_id timestamp).leaves
          = fileLeaves ++ [Merkle.mkLeafData new_dna pointer platform_id timestamp] := by
        simp [Merkle.add_leaf, hl1]
      have hne2 : (Merkle.add_leaf (load_merkle_tree H fileLeaves).1 new_dna pointer
          platform_id timestamp).leaves ≠ [] := by
        rw [hadd]; simp
      rw [Merkle.build_tree_nonempty H _ hne2]
      dsimp only
      rw [hadd]
      simp

end Register

/-- Similarity-threshold boundary: `1 - n/256 >= 0.90` holds exactly for
Hamming distances up to 25 (`0.9 * 256 = 230.4`). -/
theorem sim_threshold_iff (n : Nat) : ((9 : ℚ) / 10 ≤ 1 - (n : ℚ) / 256) ↔ n ≤ 25 := by
  constructor
  · intro h
    by_contra hn
    push_neg at hn
    have h26 : (26 : ℚ) ≤ (n : ℚ) := by exact_mod_cast hn
    linarith
  · intro h
    have h25 : (n : ℚ) ≤ 25 := by exact_mod_cast h
    linarith

/-- Counterexample to claim C2 as stated: at Hamming distance exactly 26
the standalone `is_duplicate` says duplicate, but the registration
pipeline's `check_for_duplicates` (similarity `>= 0.90`) classifies the
pair as unique. -/
theorem claim_C2_counterexample :
    ImageDna.hamming_distance dnaZeros dna26 = some 26 ∧
    ImageDna.is_duplicate dnaZeros dna26 26 = some true ∧
    (Register.check_for_duplicates dnaZeros [dna26] (9 / 10)).map Prod.fst
      = some false := by
  have hham : ImageDna.hamming_distance dnaZeros dna26 = some 26 := by decide
  refine ⟨hham, ?_, ?_⟩
  · simp [ImageDna.is_duplicate, hham]
  · have hsim : ImageDna.dna_similarity dnaZeros dna26 = some (1 - (26 : ℚ) / 256) := by
      simp [ImageDna.dna_similarity, hham]
    have hthr : ¬ ((9 : ℚ) / 10 ≤ 1 - (26 : ℚ) / 256) := by norm_num
    have hpos : (0 : ℚ) < 1 - (26 : ℚ) / 256 := by norm_num
    simp [Register.check_for_duplicates, Register.scanAux, List.enum, hsim, hthr, hpos, hham]

/-- Claim C2 amended (corrected).  With the default configuration the
standalone predicate `is_duplicate` uses the inclusive bound
`distance <= 26` (26 is Duplicate, 27 is Unique), but the registration
pipeline's `check_for_duplicates` compares `similarity >= 0.90`, which is
`distance <= 25`: the pipeline classifies a pair at distance 26 as
Unique. -/
theorem claim_C2_amended (d1 d2 : List Nat) (n : Nat)
    (h : ImageDna.hamming_distance d1 d2 = some n) :
    ImageDna.is_duplicate d1 d2 26 = some (decide (n ≤ 26)) ∧
    (Register.check_for_duplicates d1 [d2] (9 / 10)).map Prod.fst
      = some (decide (n ≤ 25)) := by
  constructor
  · simp [ImageDna.is_duplicate, h]
  · have hsim : ImageDna.dna_similarity d1 d2 = some (1 - (n : ℚ) / 256) := by
      simp [ImageDna.dna_similarity, h]
    by_cases h25 : n ≤ 25
    · have hthr : (9 : ℚ) / 10 ≤ 1 - (n : ℚ) / 256 := (sim_threshold_iff n).mpr h25
      simp [Register.check_for_duplicates, Register.scanAux, List.enum, hsim, hthr, h, h25]
    · have hthr : ¬ ((9 : ℚ) / 10 ≤ 1 - (n : ℚ) / 256) :=
        fun hc => h25 ((sim_threshold_iff n).mp hc)
      by_cases hpos : (0 : ℚ) < 1 - (n : ℚ) / 256
      · simp [Register.check_for_duplicates, Register.scanAux, List.enum, hsim, hthr,
          hpos, h, h25]
      · simp [Register.check_for_duplicates, Register.scanAux, List.enum, hsim, hthr,
          hpos, h, h25]

/-- Witness for C2 at the threshold boundary: distance 26 (duplicate for
the standalone predicate, unique for the pipeline) and distance 27
(unique for the standalone predicate). -/
theorem claim_C2_witness :
    ImageDna.is_duplicate dnaZeros dna26 26 = some true ∧
    ImageDna.is_duplicate dnaZeros dna27 26 = some false ∧
    (Register.check_for_duplicates dnaZeros [dna26] (9 / 10)).map Prod.fst
      = some false := by
  have h26 := claim_C2_amended dnaZeros dna26 26 (by decide)
  have h27 := claim_C2_amended dnaZeros dna27 27 (by decide)
  exact ⟨by simpa using h26.1, by simpa using h27.1, by simpa using h26.2⟩

/-- Counterexample to claim C10 as stated: the empty strings have equal
length and both decode under `bytes.fromhex` (to `b""`), yet
`image_dna.hamming_distance` raises (`int('', 16)` is a `ValueError`)
while `perceptual_hash.hamming_distance` returns 0 — they do not return
the same value, and the divergence is a raise against 0, not against
256. -/
theorem claim_C10_counterexample :
    fromhex ([] : List Nat) = some [] ∧
    ImageDna.hamming_distance [] [] = none ∧
    PerceptualHash.hamming_distance [] [] = 0 := by
  refine ⟨rfl, rfl, rfl⟩

/-- Claim C10 amended (corrected).  On every pair of nonempty equal-length
hex strings that `bytes.fromhex` accepts, the two Hamming-distance
implementations agree: the legacy big-integer XOR population count equals
the optimized per-byte XOR population-count sum.  (The empty pair is the
one decodable exception: `int` rejects the empty string.) -/
theorem claim_C10_amended (s1 s2 b1 b2 : List Nat) (hne : s1 ≠ [])
    (hlen : s1.length = s2.length)
    (h1 : fromhex s1 = some b1) (h2 : fromhex s2 = some b2) :
    ImageDna.hamming_distance s1 s2 = some (PerceptualHash.hamming_distance s1 s2) := by
  have hne2 : s2 ≠ [] := by
    intro hs2
    rw [hs2] at hlen
    simp at hlen
    exact hne hlen
  have hi1 : int16 s1 = some (bytesToNat b1) := int16_fromhex h1 hne
  have hi2 : int16 s2 = some (bytesToNat b2) := int16_fromhex h2 hne2
  have hblen : b1.length = b2.length := by
    have e1 := fromhex_length h1
    have e2 := fromhex_length h2
    omega
  unfold ImageDna.hamming_distance PerceptualHash.hamming_distance
  rw [if_neg (by omega), if_neg (by omega), hi1, hi2, h1, h2]
  dsimp only
  rw [popCount_xor_bytes b1 b2 hblen (fromhex_lt h1) (fromhex_lt h2)]

/-- Witness for C10 on the concrete pair `"ab"` / `"cd"` (distance 4). -/
theorem claim_C10_witness :
    ImageDna.hamming_distance [97, 98] [99, 100]
      = some (PerceptualHash.hamming_distance [97, 98] [99, 100]) :=
  claim_C10_amended [97, 98] [99, 100] [171] [205] (by decide) (by decide)
    (by decide) (by decide)

namespace Dhash

/-- On a solid image, the legacy dHash pipeline emits the all-zero hex
component, provided the external library calls map constant arrays to
constant arrays — every strict gradient comparison of equal values is
`False`. -/
theorem dhash_legacy_const_zero (L : LegacyLibs) (img : Img) (c : Nat × Nat × Nat)
    (himg : img.IsConst c)
    (hG : ∀ im cc, Img.IsConst im cc → ∃ q, Mat.IsConst (L.toGray im) q)
    (hU : ∀ m q, Mat.IsConst m q → ∃ q2, Mat.IsConst (L.uniformFilter3 m) q2)
    (hR : ∀ m (a b : Nat) q, Mat.IsConst m q → ∃ v, Mat.IsConst (L.resizeBilinear m a b) v) :
    (compute_dhash_legacy L img).1 = List.replicate 16 48 := by
  have hcrop := centerCrop_const img c 512 himg
  obtain ⟨q1, hq1⟩ := hG (centerCrop img 512) c hcrop
  obtain ⟨q2, hq2⟩ := hU (L.toGray (centerCrop img 512)) q1 hq1
  have h128 := block_average_const (L.uniformFilter3 (L.toGray (centerCrop img 512)))
    4 q2 (by omega) hq2
  have hu8 := matToU8_const _ q2 h128
  obtain ⟨v, hv⟩ := hR (matToU8 (block_average
    (L.uniformFilter3 (L.toGray (centerCrop img 512))) 4)) 9 8 (ratToU8 q2) hu8
  have hbits := gradientBits_const _ v hv (lt_irrefl v)
  have hzero := bitsToNat_allFalse _ hbits
  unfold compute_dhash_legacy
  dsimp only
  rw [hzero, hexPad16_zero]

/-- On a solid image, the optimized dHash pipeline emits the all-zero hex
component, under the same constancy discipline for its external calls. -/
theorem dhash_optimized_const_zero (P : OptLibs) (img : Img) (c : Nat × Nat × Nat)
    (himg : img.IsConst c)
    (hU1 : ∀ m (sz ax : Nat) q, Mat.IsConstW m q → ∃ q2, Mat.IsConst (P.uniformFilter1d m sz ax) q2)
    (hZ : ∀ m (a b : Nat) q, Mat.IsConst m q → ∃ v, Mat.IsConst (P.zoomResize m a b) v) :
    (compute_dhash_optimized P img).1 = List.replicate 16 48 := by
  have harr := imgToArray_constW img c himg
  have hslice := sliceCrop_constW (imgToArray img) c 512 harr
  have hgray := rgb_to_gray_fast_constW (sliceCrop (imgToArray img) 512) c hslice
  obtain ⟨q1, hq1⟩ := hU1 (rgb_to_gray_fast (sliceCrop (imgToArray img) 512)) 3 1 _ hgray
  obtain ⟨q2, hq2⟩ := hU1 (P.uniformFilter1d
    (rgb_to_gray_fast (sliceCrop (imgToArray img) 512)) 3 1) 3 0 q1 hq1.within
  have h128 := block_average_const (P.uniformFilter1d (P.uniformFilter1d
    (rgb_to_gray_fast (sliceCrop (imgToArray img) 512)) 3 1) 3 0) 4 q2 (by omega) hq2
  obtain ⟨v, hv⟩ := hZ (block_average (P.uniformFilter1d (P.uniformFilter1d
    (rgb_to_gray_fast (sliceCrop (imgToArray img) 512)) 3 1) 3 0) 4) 8 9 q2 h128
  have htr := matTrunc_const _ v hv
  have hbits := gradientBits_const _ _ htr (lt_irrefl _)
  have hzero := packFold_allFalse _ hbits
  unfold compute_dhash_optimized box_blur_separable block_average_strided pack_bits_fast
  dsimp only
  rw [hzero, hexPad16_zero]

/-- Claim C9 (confirmed).  For every solid-colour image (such as the
solid-red 256×256 PNG of scenario S1), the gradient component of the
extracted DNA is all zeros — the first 16 hex characters are
`"0000000000000000"` — in the legacy pipeline used by `compute_dna` and in
the optimized pipeline alike, because the strict greater-than comparison
of equal adjacent pixels yields 0 everywhere.  The external library calls
(grayscale, blur, resize) are hypothesised to map constant arrays to
constant arrays, which every averaging/interpolating implementation
does. -/
theorem claim_C9_solid_colour (L : LegacyLibs) (P : OptLibs) (img : Img)
    (c : Nat × Nat × Nat) (himg : img.IsConst c)
    (hG : ∀ im cc, Img.IsConst im cc → ∃ q, Mat.IsConst (L.toGray im) q)
    (hU : ∀ m q, Mat.IsConst m q → ∃ q2, Mat.IsConst (L.uniformFilter3 m) q2)
    (hR : ∀ m (a b : Nat) q, Mat.IsConst m q → ∃ v, Mat.IsConst (L.resizeBilinear m a b) v)
    (hU1 : ∀ m (sz ax : Nat) q, Mat.IsConstW m q → ∃ q2, Mat.IsConst (P.uniformFilter1d m sz ax) q2)
    (hZ : ∀ m (a b : Nat) q, Mat.IsConst m q → ∃ v, Mat.IsConst (P.zoomResize m a b) v) :
    (compute_dna L img).take 16 = List.replicate 16 48 ∧
    (compute_dhash_optimized P img).1 = List.replicate 16 48 := by
  constructor
  · have h1 := dhash_legacy_const_zero L img c himg hG hU hR
    unfold compute_dna
    rw [h1]
    simp
  · exact dhash_optimized_const_zero P img c himg hU1 hZ

/-- Witness for C9 on the solid-red 256×256 image with the concrete
constant-propagating library records. -/
theorem claim_C9_witness :
    (compute_dna testLegacyLibs img256).take 16 = List.replicate 16 48 ∧
    (compute_dhash_optimized testOptLibs img256).1 = List.replicate 16 48 :=
  claim_C9_solid_colour testLegacyLibs testOptLibs img256 (255, 0, 0)
    (fun _ _ _ _ => rfl)
    (fun _ _ _ => ⟨7, fun _ _ => rfl⟩)
    (fun m _ _ => ⟨m.px 0 0, fun _ _ => rfl⟩)
    (fun m _ _ _ _ => ⟨m.px 0 0, fun _ _ => rfl⟩)
    (fun m _ _ _ _ => ⟨m.px 0 0, fun _ _ => rfl⟩)
    (fun m _ _ _ _ => ⟨m.px 0 0, fun _ _ => rfl⟩)

/-- Counterexample to claim C8 as stated: on a solid 4×4 image — both
dimensions below 8 — DNA extraction does not fail at all: it returns the
full 64-character fingerprint (here the all-zero one).  Neither
`compute_dna` nor `compute_dhash_legacy` contains any minimum-size check
or `ImageTooSmall` error; the resize handles degenerate sizes. -/
theorem claim_C8_counterexample :
    compute_dna testLegacyLibs img4 = List.replicate 64 48 := by
  have h1 := dhash_legacy_const_zero testLegacyLibs img4 (255, 0, 0)
    (fun _ _ _ _ => rfl)
    (fun _ _ _ => ⟨7, fun _ _ => rfl⟩)
    (fun m _ _ => ⟨m.px 0 0, fun _ _ => rfl⟩)
    (fun m _ _ _ _ => ⟨m.px 0 0, fun _ _ => rfl⟩)
  unfold compute_dna
  rw [h1]
  decide

/-- Claim C8 amended (corrected).  DNA extraction performs no
minimum-dimension validation: for every decodable image, in particular
one with either dimension below 8 pixels, `compute_dna` returns a
64-hex-character fingerprint rather than raising an `ImageTooSmall`
error (no such error exists in the code). -/
theorem claim_C8_amended (L : LegacyLibs) (img : Img)
    (hgrid : (L.gridHex img).length = 48)
    (_hdim : img.w < 8 ∨ img.h < 8) :
    (compute_dna L img).length = 64 := by
  unfold compute_dna compute_dhash_legacy
  dsimp only
  rw [List.length_append, hgrid]
  have hlt : bitsToNat (gradientBits (L.resizeBilinear (matToU8 (block_average
      (L.uniformFilter3 (L.toGray (centerCrop img 512))) 4)) 9 8)) < 16 ^ 16 := by
    have h := bitsToNat_lt (gradientBits (L.resizeBilinear (matToU8 (block_average
      (L.uniformFilter3 (L.toGray (centerCrop img 512))) 4)) 9 8))
    rw [gradientBits_length] at h
    calc bitsToNat _ < 2 ^ 64 := h
      _ ≤ 16 ^ 16 := by norm_num
  rw [hexPad16_length _ hlt]

/-- Witness for C8 on the 4×4 solid image. -/
theorem claim_C8_witness : (compute_dna testLegacyLibs img4).length = 64 :=
  claim_C8_amended testLegacyLibs img4 (by decide) (Or.inl (by decide))

end Dhash

end ProTrace
